import Mathlib

/-!
# Verification development for the cuels language-server sources

Shallow embedding of
* `cmd/cuels/vscode/vscode.go` (semantic tokens),
* `pkg/golang_x_tools_internal/lsp/source/gc_annotations.go` (compiler optimisation details),
* `pkg/lsp/symbols.go` and `pkg/golang_x_tools_internal/lsp/implementation.go`
  (request handlers).

Go `string` values are embedded as Lean `String`, Go slices as `List`
(the nil slice and the empty slice are both `[]`), Go `int` as `Int`,
`uint32` as `Nat` reduced modulo `2^32`.
-/

set_option autoImplicit false

/-! ## Go built-ins -/

/-- How a Go call ends: it returns its results, or it panics. -/
inductive Exit (α : Type) where
  | returned (a : α)
  | panicked
deriving DecidableEq, Repr

/-- Go `error` values (the nil error is `none : Option error`). -/
abbrev error := String

/-! ## cmd/cuels/vscode/vscode.go -/

namespace vscode

/-- The struct `SemanticToken` of vscode.go. -/
structure SemanticToken where
  DiffLine : Int
  DiffChar : Int
  Length : Int
  TokenType : Int
  TokenModifiers : Int
deriving DecidableEq, Repr

/-- The method `(*SemanticToken).Array`: the five fields in declaration order. -/
def SemanticToken.Array (st : SemanticToken) : List Int :=
  [st.DiffLine, st.DiffChar, st.Length, st.TokenType, st.TokenModifiers]

/-- The type `SemanticTokens []SemanticToken`. -/
abbrev SemanticTokens := List SemanticToken

/-- The method `SemanticTokens.Array`: `var a []int; for _, st := range sts { a = append(a, st.Array()...) }`. -/
def SemanticTokens.Array (sts : SemanticTokens) : List Int :=
  sts.foldl (fun a st => a ++ st.Array) []

end vscode

/-! ## Go standard library: strings -/

namespace strings

/-- Go `strings.HasPrefix(s, prefix)`: `s` begins with `prefix`. -/
def HasPrefix (s pre : String) : Bool := pre.data.isPrefixOf s.data

/-- Go `strings.HasSuffix(s, suffix)`: `s` ends with `suffix`. -/
def HasSuffix (s suf : String) : Bool := suf.data.isSuffixOf s.data

end strings

/-! ## Protocol types used by the sources (package `protocol`) -/

namespace protocol

/-- The modulus of Go `uint32` arithmetic. -/
def uint32Mod : Nat := 4294967296

/-- Go `x - 1` on `uint32` operands (wraps around at zero). -/
def subOne (x : Nat) : Nat := (x + (uint32Mod - 1)) % uint32Mod

/-- Go `x + 1` on `uint32` operands (wraps around at the top). -/
def addOne (x : Nat) : Nat := (x + 1) % uint32Mod

/-- The struct `protocol.Position`, declared in package `protocol` outside
these sources; its fields `Line` and `Character` are `uint32`. -/
structure Position where
  Line : Nat
  Character : Nat
deriving DecidableEq, Repr

/-- The struct `protocol.Range`. -/
structure Range where
  Start : Position
  End : Position
deriving DecidableEq, Repr

/-- Every coordinate of the range is a `uint32` value. -/
def Range.IsUint32 (r : Range) : Prop :=
  r.Start.Line < uint32Mod ∧ r.Start.Character < uint32Mod ∧
  r.End.Line < uint32Mod ∧ r.End.Character < uint32Mod

instance (r : Range) : Decidable r.IsUint32 := by
  unfold Range.IsUint32; infer_instance

/-- The struct `protocol.Location`. -/
structure Location where
  URI : String
  Range : Range
deriving DecidableEq, Repr

/-- The struct `protocol.DiagnosticRelatedInformation`. -/
structure DiagnosticRelatedInformation where
  Location : Location
  Message : String
deriving DecidableEq, Repr

/-- The dynamic value of an `interface{}` field after JSON decoding. For the
type assertion `d.Code.(string)` only the distinction between a string and
anything else (nil, float64, bool, slice, map) matters. -/
inductive Interface where
  | nil
  | string (s : String)
  | number (n : Int)
  | bool (b : Bool)
deriving DecidableEq, Repr

/-- The struct `protocol.Diagnostic`, with the fields read by `parseDetailsFile`. -/
structure Diagnostic where
  Range : Range
  Severity : Nat
  Code : Interface
  Source : String
  Message : String
  Tags : List Nat
  RelatedInformation : List DiagnosticRelatedInformation
deriving DecidableEq, Repr

end protocol

/-! ## pkg/golang_x_tools_internal/lsp/source/gc_annotations.go -/

namespace source

/-- The type `Annotation string`. -/
abbrev Annotation := String

/-- Nil controls nil checks. -/
def Nil : Annotation := "nil"

/-- Escape controls diagnostics about escape choices. -/
def Escape : Annotation := "escape"

/-- Inline controls diagnostics about inlining choices. -/
def Inline : Annotation := "inline"

/-- Bounds controls bounds checking diagnostics. -/
def Bounds : Annotation := "bounds"

/-- The part of `Options` read here: the map `Annotations map[Annotation]bool`,
`none` being the nil map and `m k = none` an absent key. -/
structure Options where
  Annotations : Option ( Annotation → Option Bool)

/-- Go map indexing `m[k]` on a `map[Annotation]bool`: the zero value `false`
for an absent key. -/
def index (m : Annotation → Option Bool) (k : Annotation) : Bool := (m k).getD false

/-- The function `showDiagnostic`. -/
def showDiagnostic (msg source : String) (o : Options) : Bool :=
  if source != "go compiler" then false
  else match o.Annotations with
  | none => true
  | some m =>
    if strings.HasPrefix msg "canInline" ||
        strings.HasPrefix msg "cannotInline" ||
        strings.HasPrefix msg "inlineCall" then index m Inline
    else if strings.HasPrefix msg "escape" || msg == "leak" then index m Escape
    else if strings.HasPrefix msg "nilcheck" then index m Nil
    else if strings.HasPrefix msg "isInBounds" ||
        strings.HasPrefix msg "isSliceInBounds" then index m Bounds
    else false

/-- The prefix tests of the first `case` of `showDiagnostic`. -/
def isInlineMsg (msg : String) : Bool :=
  strings.HasPrefix msg "canInline" || strings.HasPrefix msg "cannotInline" ||
    strings.HasPrefix msg "inlineCall"

/-- The tests of the second `case` of `showDiagnostic`. -/
def isEscapeMsg (msg : String) : Bool :=
  strings.HasPrefix msg "escape" || msg == "leak"

/-- The test of the third `case` of `showDiagnostic`. -/
def isNilMsg (msg : String) : Bool := strings.HasPrefix msg "nilcheck"

/-- The prefix tests of the fourth `case` of `showDiagnostic`. -/
def isBoundsMsg (msg : String) : Bool :=
  strings.HasPrefix msg "isInBounds" || strings.HasPrefix msg "isSliceInBounds"

/-- The function `zeroIndexedRange`: every coordinate minus one, in `uint32`. -/
def zeroIndexedRange (rng : protocol.Range) : protocol.Range :=
  { Start := { Line := protocol.subOne rng.Start.Line,
               Character := protocol.subOne rng.Start.Character },
    End := { Line := protocol.subOne rng.End.Line,
             Character := protocol.subOne rng.End.Character } }

/-- Adding one to every coordinate, in `uint32` (the inverse direction, as in
`positionToString` of vscode.go). -/
def oneIndexedRange (rng : protocol.Range) : protocol.Range :=
  { Start := { Line := protocol.addOne rng.Start.Line,
               Character := protocol.addOne rng.Start.Character },
    End := { Line := protocol.addOne rng.End.Line,
             Character := protocol.addOne rng.End.Character } }

end source

namespace source

/-- Functions and constants of packages that the file imports: `span.URIFromPath`,
the method `protocol.DocumentURI.SpanURI` and the `DiagnosticSource` constant
`OptimizationDetailsError`. -/
structure Extern where
  URIFromPath : String → String
  SpanURI : String → String
  OptimizationDetailsError : String

/-- The struct `source.RelatedInformation`. -/
structure RelatedInformation where
  URI : String
  Range : protocol.Range
  Message : String
deriving DecidableEq, Repr

/-- The struct `source.Diagnostic`, with the fields set by `parseDetailsFile`. -/
structure Diagnostic where
  URI : String
  Range : protocol.Range
  Message : String
  Severity : Nat
  Source : String
  Tags : List Nat
  Related : List RelatedInformation
deriving DecidableEq, Repr

/-- The local type `metadata` of `parseDetailsFile`. -/
structure metadata where
  File : String
deriving DecidableEq, Repr

/-- One JSON value of a details file, given by what `dec.Decode` makes of it
at each of the two target types the function decodes into. -/
structure Value where
  asMetadata : Except error metadata
  asDiagnostic : Except error protocol.Diagnostic

/-- The type assertion `x.(string)`: the string held by the interface value,
`none` when the dynamic type is not `string` (the assertion then panics). -/
def stringValue : protocol.Interface → Option String
  | .string s => some s
  | _ => none

/-- Lines 128-131: `msg := d.Code.(string); if msg != "" { msg = fmt.Sprintf("%s(%s)", msg, d.Message) }`. -/
def detailMessage (code message : String) : String :=
  if code != "" then code ++ "(" ++ message ++ ")" else code

/-- Lines 135-142: the related information of a decoded diagnostic. -/
def relatedOf (x : Extern) (d : protocol.Diagnostic) : List RelatedInformation :=
  d.RelatedInformation.map fun ri =>
    { URI := x.SpanURI ri.Location.URI,
      Range := zeroIndexedRange ri.Location.Range,
      Message := ri.Message }

/-- Lines 143-151: the diagnostic built from a decoded one. -/
def diagnosticOf (x : Extern) (uri msg : String) (d : protocol.Diagnostic) : Diagnostic :=
  { URI := uri,
    Range := zeroIndexedRange d.Range,
    Message := msg,
    Severity := d.Severity,
    Source := x.OptimizationDetailsError,
    Tags := d.Tags,
    Related := relatedOf x d }

/-- The loop `for dec := json.NewDecoder(...); dec.More(); { ... }` of
`parseDetailsFile` over the remaining JSON values, with the loop variables
`uri`, `i`, `diagnostics` as arguments. -/
def parseLoop (x : Extern) (options : Options) :
    List Value → String → Nat → List Diagnostic → Exit (String × List Diagnostic × Option error)
  | [], uri, _, diagnostics => .returned (uri, diagnostics, none)
  | v :: rest, uri, i, diagnostics =>
    if i = 0 then
      match v.asMetadata with
      | .error err => .returned ("", [], some err)
      | .ok m =>
        if !strings.HasSuffix m.File ".go" then parseLoop x options rest uri (i + 1) diagnostics
        else parseLoop x options rest (x.URIFromPath m.File) (i + 1) diagnostics
    else
      match v.asDiagnostic with
      | .error err => .returned ("", [], some err)
      | .ok d =>
        match stringValue d.Code with
        | none => .panicked
        | some code =>
          let msg := detailMessage code d.Message
          if !showDiagnostic msg d.Source options then parseLoop x options rest uri i diagnostics
          else parseLoop x options rest uri (i + 1) (diagnostics ++ [diagnosticOf x uri msg d])

/-- The function `parseDetailsFile`; `ReadFile` is `ioutil.ReadFile`, giving
the content of a file as its sequence of JSON values. -/
def parseDetailsFile (x : Extern) (ReadFile : String → Except error (List Value))
    (filename : String) (options : Options) : Exit (String × List Diagnostic × Option error) :=
  match ReadFile filename with
  | .error err => .returned ("", [], some err)
  | .ok buf => parseLoop x options buf "" 0 []

/-- The function `findJSONFiles`; `walk` is what `filepath.Walk(dir, f)` does:
the visited entries as (path, IsDir) in visiting order, and its error. The
callback always returns nil, so every entry is visited. -/
def findJSONFiles (walk : List (String × Bool) × Option error) : List String × Option error :=
  (walk.1.foldl
      (fun ans e => if e.2 then ans else if strings.HasSuffix e.1 ".json" then ans ++ [e.1] else ans)
      [],
    walk.2)

/-- The struct `VersionedFileIdentity`. -/
structure VersionedFileIdentity where
  URI : String
  SessionID : String
  Version : Int
deriving DecidableEq, Repr

/-- What the function reads of a `VersionedFileHandle`. -/
structure FileHandle where
  URI : String
  VersionedFileIdentity : VersionedFileIdentity
deriving DecidableEq, Repr

/-- The map `map[VersionedFileIdentity][]*Diagnostic` as an association list
with distinct keys. -/
abbrev Reports := List (VersionedFileIdentity × List Diagnostic)

/-- Go map assignment `reports[k] = v`. -/
def Reports.assign (reports : Reports) (k : VersionedFileIdentity) (v : List Diagnostic) : Reports :=
  reports.filter (fun e => e.1 != k) ++ [(k, v)]

/-- Everything outside the function that `GCOptimizationDetails` consults:
the outcome of `os.MkdirAll`, of `ioutil.TempFile`, of
`snapshot.RunGoCommandDirect`, of `filepath.Walk` on the output directory,
the file contents, `snapshot.FindFile`, `span.URI.Filename`, `filepath.Dir`
and `snapshot.View().Options()`. -/
structure World where
  ext : Extern
  MkdirAll : Option error
  TempFile : Except error String
  RunGoCommandDirect : Option error
  Walk : List (String × Bool) × Option error
  ReadFile : String → Except error (List Value)
  FindFile : String → Option FileHandle
  Filename : String → String
  Dir : String → String
  Options : Options

/-- The loop `for _, fn := range files { ... }` of `GCOptimizationDetails`, with
`reports` and `parseError` as arguments. -/
def reportLoop (w : World) (pkgDir : String) :
    List String → Reports → Option error → Exit (Reports × Option error)
  | [], reports, parseError => .returned (reports, parseError)
  | fn :: rest, reports, parseError =>
    match parseDetailsFile w.ext w.ReadFile fn w.Options with
    | .panicked => .panicked
    | .returned (uri, diagnostics, err) =>
      let parseError := if err.isSome then err else parseError
      match w.FindFile uri with
      | none => reportLoop w pkgDir rest reports parseError
      | some fh =>
        if w.Filename pkgDir != w.Dir (w.Filename fh.URI) then
          reportLoop w pkgDir rest reports parseError
        else
          reportLoop w pkgDir rest (Reports.assign reports fh.VersionedFileIdentity diagnostics) parseError

/-- The function `GCOptimizationDetails`. The first component of the result
is the report map, `none` being the nil map. -/
def GCOptimizationDetails (w : World) (pkgDir : String) : Exit (Option Reports × Option error) :=
  match w.MkdirAll with
  | some err => .returned (none, some err)
  | none =>
    match w.TempFile with
    | .error err => .returned (none, some err)
    | .ok _ =>
      match w.RunGoCommandDirect with
      | some err => .returned (none, some err)
      | none =>
        match findJSONFiles w.Walk with
        | (_, some err) => .returned (none, some err)
        | (files, none) =>
          match reportLoop w pkgDir files [] none with
          | .panicked => .panicked
          | .returned (reports, parseError) => .returned (some reports, parseError)

end source

/-! ## Concrete inputs used by the evaluations below -/

namespace source

/-- A concrete choice of the imported functions: file URIs by prefixing. -/
def exampleExtern : Extern :=
  { URIFromPath := fun p => "file://" ++ p,
    SpanURI := fun u => u,
    OptimizationDetailsError := "optimizer details" }

/-- Options with a nil Annotations map. -/
def exampleOptions : Options := { Annotations := none }

/-- A JSON value decoded as metadata naming `file`. -/
def metadataValue (file : String) : Value :=
  { asMetadata := .ok { File := file },
    asDiagnostic := .error "json: cannot unmarshal" }

/-- A JSON value decoded as the diagnostic `d`. -/
def diagnosticValue (d : protocol.Diagnostic) : Value :=
  { asMetadata := .ok { File := "" },
    asDiagnostic := .ok d }

/-- A compiler diagnostic at 3:7-4:1 with the given code. -/
def exampleDiagnostic (code : protocol.Interface) : protocol.Diagnostic :=
  { Range := ⟨⟨3, 7⟩, ⟨4, 1⟩⟩,
    Severity := 3,
    Code := code,
    Source := "go compiler",
    Message := "f",
    Tags := [],
    RelatedInformation := [] }

/-- A details file: metadata for "/w/a.go", then one "canInline" diagnostic. -/
def exampleReadFile : String → Except error (List Value) :=
  fun _ => .ok [metadataValue "/w/a.go", diagnosticValue (exampleDiagnostic (.string "canInline"))]

/-- A world in which the build tool invocation fails. -/
def failingToolWorld : World :=
  { ext := exampleExtern,
    MkdirAll := none,
    TempFile := .ok "/tmp/gopls-x1",
    RunGoCommandDirect := some "exit status 2",
    Walk := ([("/tmp/gopls-1.details/a.json", false)], none),
    ReadFile := exampleReadFile,
    FindFile := fun u => some { URI := u, VersionedFileIdentity := ⟨u, "1", 1⟩ },
    Filename := fun u => u,
    Dir := fun _ => "/w",
    Options := exampleOptions }

end source

/-! ## pkg/lsp/symbols.go and pkg/golang_x_tools_internal/lsp/implementation.go -/

namespace lsp

/-- The struct `protocol.DocumentSymbol`. -/
inductive DocumentSymbol where
  | mk (Name Detail : String) (Kind : Nat) (Deprecated : Bool)
      (Range SelectionRange : protocol.Range) (Children : List DocumentSymbol)

/-- Field `Name`. -/
def DocumentSymbol.Name : DocumentSymbol → String
  | .mk n _ _ _ _ _ _ => n

/-- Field `Kind`. -/
def DocumentSymbol.Kind : DocumentSymbol → Nat
  | .mk _ _ k _ _ _ _ => k

/-- Field `Deprecated`. -/
def DocumentSymbol.Deprecated : DocumentSymbol → Bool
  | .mk _ _ _ d _ _ _ => d

/-- Field `Range`. -/
def DocumentSymbol.Range : DocumentSymbol → protocol.Range
  | .mk _ _ _ _ r _ _ => r

/-- The struct `protocol.SymbolInformation`; `ContainerName` is left at its
zero value by the handler. -/
structure SymbolInformation where
  Name : String
  Kind : Nat
  Deprecated : Bool
  Location : protocol.Location
  ContainerName : String

/-- An element of the `[]interface{}` the handler returns. -/
inductive Symbol where
  | nil
  | documentSymbol (s : DocumentSymbol)
  | symbolInformation (s : SymbolInformation)

/-- What the handlers read of a snapshot: its generation and
`snapshot.View().Options().HierarchicalDocumentSymbolSupport`. -/
structure Snapshot where
  generation : Nat
  HierarchicalDocumentSymbolSupport : Bool

/-- The bookkeeping of the Request Lifecycle Guard: the pin count of the
view's current snapshot, and how many times a request was begun and a release
function was called. -/
structure Guard where
  pins : Nat
  begins : Nat
  releases : Nat
deriving DecidableEq, Repr

/-- What `beginFileRequest` hands to a handler besides the release function. -/
structure FileRequest where
  snapshot : Snapshot
  fh : String
  ok : Bool
  err : Option error

/-- Modelled from the spec: the release function returned by `begin`, which is
not part of the sources; "`release` decrements the reference count". -/
def release (g : Guard) : Guard :=
  { g with pins := g.pins - 1, releases := g.releases + 1 }

/-- Modelled from the spec: `Server.beginFileRequest`, which is not part of the
sources; "pins the View's current Snapshot at call time (increment its reference
count) and returns a release function". `req` is what it yields for the URI. -/
def beginFileRequest (req : FileRequest) (g : Guard) : (FileRequest × (Guard → Guard)) × Guard :=
  ((req, release), { g with pins := g.pins + 1, begins := g.begins + 1 })

/-- The collaborators of the two handlers: what `beginFileRequest` yields for
a URI, `source.Implementation` and `source.DocumentSymbols`. -/
structure Server where
  fileRequest : String → FileRequest
  Implementation : Snapshot → String → protocol.Position →
    Exit (List protocol.Location × Option error)
  DocumentSymbols : Snapshot → String → Exit (List DocumentSymbol × Option error)

/-- The params of both requests: `TextDocument.URI` and `Position`. -/
structure Params where
  URI : String
  Position : protocol.Position

/-- The method `Server.implementation`. `defer release()` runs `release` when
the function exits, by return or by panic, so it is applied to the state the
body leaves. -/
def implementation (s : Server) (params : Params) (g : Guard) :
    Exit (List protocol.Location × Option error) × Guard :=
  match beginFileRequest (s.fileRequest params.URI) g with
  | ((req, release), g1) =>
    let exit : Exit (List protocol.Location × Option error) :=
      if !req.ok then .returned ([], req.err)
      else s.Implementation req.snapshot req.fh params.Position
    (exit, release g1)

/-- The loop `for i, s := range docSymbols { ... symbols[i] = ... }` of
`documentSymbol`, with the index `i` and the slice `symbols` as arguments. -/
def fillSymbols (hierarchical : Bool) (uri : String) :
    List DocumentSymbol → Nat → List Symbol → List Symbol
  | [], _, symbols => symbols
  | s :: rest, i, symbols =>
    if hierarchical then
      fillSymbols hierarchical uri rest (i + 1) (symbols.set i (.documentSymbol s))
    else
      fillSymbols hierarchical uri rest (i + 1)
        (symbols.set i (.symbolInformation
          { Name := s.Name,
            Kind := s.Kind,
            Deprecated := s.Deprecated,
            Location := { URI := uri, Range := s.Range },
            ContainerName := "" }))

/-- The method `Server.documentSymbol` (the tracing calls `event.Start`, `done`
and `event.Error` do not touch the state and are left out). -/
def documentSymbol (s : Server) (params : Params) (g : Guard) :
    Exit (List Symbol × Option error) × Guard :=
  match beginFileRequest (s.fileRequest params.URI) g with
  | ((req, release), g1) =>
    let exit : Exit (List Symbol × Option error) :=
      if !req.ok then .returned ([], req.err)
      else
        match s.DocumentSymbols req.snapshot req.fh with
        | .panicked => .panicked
        | .returned (_, some _) => .returned ([], none)
        | .returned (docSymbols, none) =>
          .returned
            (fillSymbols req.snapshot.HierarchicalDocumentSymbolSupport params.URI docSymbols 0
              (List.replicate docSymbols.length Symbol.nil),
             none)
    (exit, release g1)

/-- A server whose file request succeeds on generation 1 and whose analysis
finds one symbol; `hierarchical` is the client capability. -/
def exampleServer (hierarchical : Bool) : Server :=
  { fileRequest := fun _ =>
      { snapshot := { generation := 1, HierarchicalDocumentSymbolSupport := hierarchical },
        fh := "file:///w/a.cue", ok := true, err := none },
    Implementation := fun _ _ _ => .returned ([], some "no implementations"),
    DocumentSymbols := fun _ _ =>
      .returned ([.mk "a" "" 8 false ⟨⟨0, 0⟩, ⟨0, 9⟩⟩ ⟨⟨0, 0⟩, ⟨0, 1⟩⟩ []], none) }

end lsp

/-! ## cmd/cuels/vscode/vscode.go: scanning -/

namespace vscode

/-- What one call of `s.Scan()` yields: the position, token and literal it
returns and the errors it reports to the error handler `eh` meanwhile. -/
structure ScanResult (Pos : Type) where
  pos : Pos
  tok : Int
  lit : String
  errs : List error

/-- The packages `source`, `token` and `scanner` as used by
`SemanticTokensFromSource`: `source.Read`, the start position
`f.Pos(0, token.RelPos(0))` of the new file, the scanner state after `s.Init`,
`s.Scan`, the methods `Pos.Line` and `Pos.Column`, and the constant `token.EOF`. -/
structure Scanning (Text Pos σ : Type) where
  Read : String → Except error Text
  startPos : String → Text → Pos
  Init : String → Text → σ
  Scan : σ → ScanResult Pos × σ
  Line : Pos → Int
  Column : Pos → Int
  EOF : Int

/-- The function `SemanticTokenFromScan`; `len(lit)` counts bytes. -/
def SemanticTokenFromScan {Text Pos σ : Type} (x : Scanning Text Pos σ)
    (lastPos pos : Pos) (tok : Int) (lit : String) : SemanticToken :=
  { DiffLine := x.Line pos - x.Line lastPos,
    DiffChar := x.Column pos - x.Column lastPos,
    Length := lit.utf8ByteSize,
    TokenType := tok,
    TokenModifiers := 0 }

/-- What `SemanticTokensFromSource` returns, the token list and the error
(`[]` is the nil error, a failed read gives the one read error, scanning the
appended scanner errors), together with the number of `s.Scan()` calls made. -/
structure Tokens where
  sts : SemanticTokens
  errs : List error
  scans : Nat
deriving DecidableEq, Repr

/-- The loop `for true { ... }` of `SemanticTokensFromSource`; `fuel` bounds
the number of iterations, `none` meaning the bound was reached. -/
def scanLoop {Text Pos σ : Type} (x : Scanning Text Pos σ) :
    Nat → σ → Pos → SemanticTokens → List error → Nat → Option Tokens
  | 0, _, _, _, _, _ => none
  | fuel + 1, s, lastPos, sts, errs, scans =>
    match x.Scan s with
    | (r, s1) =>
      let st := SemanticTokenFromScan x lastPos r.pos r.tok r.lit
      if r.tok = x.EOF then some { sts := sts ++ [st], errs := errs ++ r.errs, scans := scans + 1 }
      else scanLoop x fuel s1 r.pos (sts ++ [st]) (errs ++ r.errs) (scans + 1)

/-- The function `SemanticTokensFromSource`. -/
def SemanticTokensFromSource {Text Pos σ : Type} (x : Scanning Text Pos σ) (fuel : Nat)
    (filename : String) : Option Tokens :=
  match x.Read filename with
  | .error terr => some { sts := [], errs := [terr], scans := 0 }
  | .ok text => scanLoop x fuel (x.Init filename text) (x.startPos filename text) [] [] 0

/-- The state of the scanner before its call number `k` (counting from 0). -/
def stateAt {Text Pos σ : Type} (x : Scanning Text Pos σ) (s0 : σ) : Nat → σ
  | 0 => s0
  | k + 1 => (x.Scan (stateAt x s0 k)).2

/-- The result of call number `k` of `s.Scan()`. -/
def scanAt {Text Pos σ : Type} (x : Scanning Text Pos σ) (s0 : σ) (k : Nat) : ScanResult Pos :=
  (x.Scan (stateAt x s0 k)).1

/-- The value of `lastPos` at call number `k`. -/
def lastPosAt {Text Pos σ : Type} (x : Scanning Text Pos σ) (s0 : σ) (p0 : Pos) : Nat → Pos
  | 0 => p0
  | k + 1 => (scanAt x s0 k).pos

/-- The token appended at call number `k`. -/
def tokenAt {Text Pos σ : Type} (x : Scanning Text Pos σ) (s0 : σ) (p0 : Pos) (k : Nat) :
    SemanticToken :=
  SemanticTokenFromScan x (lastPosAt x s0 p0 k) (scanAt x s0 k).pos (scanAt x s0 k).tok
    (scanAt x s0 k).lit

/-- A scanner over a fixed list of (line, column, token, literal): positions
are (line, column) pairs, the state is the list still to be scanned, and past
its end the scanner keeps yielding EOF (token 1). -/
def listScanning (src : String → Except error (List (Int × Int × Int × String))) :
    Scanning (List (Int × Int × Int × String)) (Int × Int) (List (Int × Int × Int × String)) :=
  { Read := src,
    startPos := fun _ _ => (1, 1),
    Init := fun _ text => text,
    Scan := fun s =>
      match s with
      | [] => ({ pos := (1, 1), tok := 1, lit := "", errs := [] }, [])
      | (l, c, t, lit) :: rest =>
        ({ pos := (l, c), tok := t, lit := lit,
           errs := if t = 0 then ["illegal character"] else [] }, rest),
    Line := fun p => p.1,
    Column := fun p => p.2,
    EOF := 1 }

end vscode

/-! ## Theorems -/

namespace vscode

theorem foldl_Array_eq (sts : SemanticTokens) (acc : List Int) :
    sts.foldl (fun a st => a ++ st.Array) acc
      = acc ++ (sts.map SemanticToken.Array).flatten := by
  induction sts generalizing acc with
  | nil => simp
  | cons st rest ih => simp [ih, List.append_assoc]

theorem Array_eq_join (sts : SemanticTokens) :
    SemanticTokens.Array sts = (sts.map SemanticToken.Array).flatten := by
  simp [SemanticTokens.Array, foldl_Array_eq]

theorem Array_cons (st : SemanticToken) (sts : SemanticTokens) :
    SemanticTokens.Array (st :: sts) = st.Array ++ SemanticTokens.Array sts := by
  simp [Array_eq_join]

theorem Array_length (sts : SemanticTokens) :
    (SemanticTokens.Array sts).length = 5 * sts.length := by
  induction sts with
  | nil => rfl
  | cons st rest ih =>
    rw [Array_cons, List.length_append, ih]
    simp [SemanticToken.Array]
    omega

theorem Array_getElem? (sts : SemanticTokens) (i : Nat) (st : SemanticToken)
    (h : sts[i]? = some st) :
    (SemanticTokens.Array sts)[5 * i]? = some st.DiffLine ∧
    (SemanticTokens.Array sts)[5 * i + 1]? = some st.DiffChar ∧
    (SemanticTokens.Array sts)[5 * i + 2]? = some st.Length ∧
    (SemanticTokens.Array sts)[5 * i + 3]? = some st.TokenType ∧
    (SemanticTokens.Array sts)[5 * i + 4]? = some st.TokenModifiers := by
  induction sts generalizing i with
  | nil => simp at h
  | cons s rest ih =>
    cases i with
    | zero =>
      simp at h
      subst h
      simp [Array_cons, SemanticToken.Array]
    | succ j =>
      simp at h
      have hj := ih j h
      have e0 : 5 * (j + 1) = 5 * j + 5 := by ring
      rw [Array_cons, e0]
      have hl : s.Array.length = 5 := rfl
      refine ⟨?_, ?_, ?_, ?_, ?_⟩
      · rw [List.getElem?_append_right (by omega)]
        simpa [hl] using hj.1
      · rw [List.getElem?_append_right (by omega)]
        have : 5 * j + 5 + 1 - s.Array.length = 5 * j + 1 := by omega
        rw [this]; exact hj.2.1
      · rw [List.getElem?_append_right (by omega)]
        have : 5 * j + 5 + 2 - s.Array.length = 5 * j + 2 := by omega
        rw [this]; exact hj.2.2.1
      · rw [List.getElem?_append_right (by omega)]
        have : 5 * j + 5 + 3 - s.Array.length = 5 * j + 3 := by omega
        rw [this]; exact hj.2.2.2.1
      · rw [List.getElem?_append_right (by omega)]
        have : 5 * j + 5 + 4 - s.Array.length = 5 * j + 4 := by omega
        rw [this]; exact hj.2.2.2.2

end vscode

namespace source

theorem subOne_of_pos (x : Nat) (h1 : 1 ≤ x) (h2 : x < protocol.uint32Mod) :
    protocol.subOne x = x - 1 := by
  unfold protocol.subOne protocol.uint32Mod at *
  omega

theorem addOne_subOne (x : Nat) (h1 : 1 ≤ x) (h2 : x < protocol.uint32Mod) :
    protocol.addOne (protocol.subOne x) = x ∧ protocol.subOne x + 1 < protocol.uint32Mod := by
  unfold protocol.subOne protocol.addOne protocol.uint32Mod at *
  omega

/-- C4: on a range of `uint32` coordinates that are all at least 1,
`zeroIndexedRange` returns exactly the range with every coordinate one less;
adding 1 back to every coordinate of the result, in `uint32`, restores the
input, and none of these additions wraps around. -/
theorem zeroIndexedRange_spec (rng : protocol.Range) (hw : rng.IsUint32)
    (h1 : 1 ≤ rng.Start.Line) (h2 : 1 ≤ rng.Start.Character)
    (h3 : 1 ≤ rng.End.Line) (h4 : 1 ≤ rng.End.Character) :
    zeroIndexedRange rng =
        { Start := { Line := rng.Start.Line - 1, Character := rng.Start.Character - 1 },
          End := { Line := rng.End.Line - 1, Character := rng.End.Character - 1 } } ∧
      oneIndexedRange (zeroIndexedRange rng) = rng ∧
      (zeroIndexedRange rng).Start.Line + 1 = rng.Start.Line ∧
      (zeroIndexedRange rng).Start.Character + 1 = rng.Start.Character ∧
      (zeroIndexedRange rng).End.Line + 1 = rng.End.Line ∧
      (zeroIndexedRange rng).End.Character + 1 = rng.End.Character ∧
      (oneIndexedRange (zeroIndexedRange rng)).IsUint32 := by
  obtain ⟨w1, w2, w3, w4⟩ := hw
  have a1 := subOne_of_pos _ h1 w1
  have a2 := subOne_of_pos _ h2 w2
  have a3 := subOne_of_pos _ h3 w3
  have a4 := subOne_of_pos _ h4 w4
  have b1 := (addOne_subOne _ h1 w1).1
  have b2 := (addOne_subOne _ h2 w2).1
  have b3 := (addOne_subOne _ h3 w3).1
  have b4 := (addOne_subOne _ h4 w4).1
  have hround : oneIndexedRange (zeroIndexedRange rng) = rng := by
    obtain ⟨⟨sl, sc⟩, ⟨el, ec⟩⟩ := rng
    simp only [zeroIndexedRange, oneIndexedRange] at *
    simp [b1, b2, b3, b4]
  refine ⟨?_, hround, ?_, ?_, ?_, ?_, ?_⟩
  · simp [zeroIndexedRange, a1, a2, a3, a4]
  · simp only [zeroIndexedRange, a1]; omega
  · simp only [zeroIndexedRange, a2]; omega
  · simp only [zeroIndexedRange, a3]; omega
  · simp only [zeroIndexedRange, a4]; omega
  · rw [hround]; exact ⟨w1, w2, w3, w4⟩

/-- Witness for C4 at the range 3:7-4:1. -/
theorem zeroIndexedRange_spec_witness :
    zeroIndexedRange ⟨⟨3, 7⟩, ⟨4, 1⟩⟩ = ⟨⟨2, 6⟩, ⟨3, 0⟩⟩ ∧
      oneIndexedRange (zeroIndexedRange ⟨⟨3, 7⟩, ⟨4, 1⟩⟩) = ⟨⟨3, 7⟩, ⟨4, 1⟩⟩ :=
  ⟨(zeroIndexedRange_spec ⟨⟨3, 7⟩, ⟨4, 1⟩⟩ (by decide) (by decide) (by decide)
      (by decide) (by decide)).1,
   (zeroIndexedRange_spec ⟨⟨3, 7⟩, ⟨4, 1⟩⟩ (by decide) (by decide) (by decide)
      (by decide) (by decide)).2.1⟩

end source

namespace source

theorem take_of_HasPrefix (msg pre : String) (n : Nat) (h : strings.HasPrefix msg pre = true)
    (hn : n ≤ pre.data.length) : msg.data.take n = pre.data.take n := by
  unfold strings.HasPrefix at h
  rw [List.isPrefixOf_iff_prefix] at h
  obtain ⟨t, ht⟩ := h
  rw [← ht, List.take_append_of_le_length hn]

theorem HasPrefix_false_of_take (msg q : String) (k : List Char)
    (hk : msg.data.take 2 = k) (hq : 2 ≤ q.data.length) (hne : k ≠ q.data.take 2) :
    strings.HasPrefix msg q = false := by
  cases hb : strings.HasPrefix msg q with
  | false => rfl
  | true => exact absurd (hk.symm.trans (take_of_HasPrefix msg q 2 hb hq)) hne

theorem ne_of_take (msg q : String) (k : List Char)
    (hk : msg.data.take 2 = k) (hne : k ≠ q.data.take 2) : (msg == q) = false := by
  cases hb : msg == q with
  | false => rfl
  | true =>
    have : msg = q := by simpa using hb
    subst this
    exact absurd hk.symm hne

theorem showDiagnostic_unfold (msg : String) (o : Options) (m : Annotation → Option Bool)
    (hm : o.Annotations = some m) :
    showDiagnostic msg "go compiler" o =
      if isInlineMsg msg then index m Inline
      else if isEscapeMsg msg then index m Escape
      else if isNilMsg msg then index m Nil
      else if isBoundsMsg msg then index m Bounds
      else false := by
  simp [showDiagnostic, hm, isInlineMsg, isEscapeMsg, isNilMsg, isBoundsMsg]

theorem not_inline_of_take (msg : String) (k : List Char) (hk : msg.data.take 2 = k)
    (h1 : k ≠ ['c', 'a']) (h2 : k ≠ ['i', 'n']) : isInlineMsg msg = false := by
  simp [isInlineMsg, HasPrefix_false_of_take msg "canInline" k hk (by decide) h1,
    HasPrefix_false_of_take msg "cannotInline" k hk (by decide) h1,
    HasPrefix_false_of_take msg "inlineCall" k hk (by decide) h2]

theorem not_escape_of_take (msg : String) (k : List Char) (hk : msg.data.take 2 = k)
    (h1 : k ≠ ['e', 's']) (h2 : k ≠ ['l', 'e']) : isEscapeMsg msg = false := by
  simp [isEscapeMsg, HasPrefix_false_of_take msg "escape" k hk (by decide) h1,
    ne_of_take msg "leak" k hk h2]

theorem not_nil_of_take (msg : String) (k : List Char) (hk : msg.data.take 2 = k)
    (h1 : k ≠ ['n', 'i']) : isNilMsg msg = false := by
  simp [isNilMsg, HasPrefix_false_of_take msg "nilcheck" k hk (by decide) h1]

end source

namespace source

/-- C2: with source "go compiler" and a non-nil Annotations map `m`,
`showDiagnostic` returns `m[Inline]` for messages starting with "canInline",
"cannotInline" or "inlineCall", `m[Escape]` for messages starting with "escape"
or equal to "leak", `m[Nil]` for messages starting with "nilcheck", `m[Bounds]`
for messages starting with "isInBounds" or "isSliceInBounds", and false for
every other message; a key absent from the map reads as false. -/
theorem showDiagnostic_spec (msg : String) (o : Options) (m : Annotation → Option Bool)
    (hm : o.Annotations = some m) :
    ((strings.HasPrefix msg "canInline" = true ∨ strings.HasPrefix msg "cannotInline" = true ∨
        strings.HasPrefix msg "inlineCall" = true) →
      showDiagnostic msg "go compiler" o = index m Inline) ∧
    ((strings.HasPrefix msg "escape" = true ∨ msg = "leak") →
      showDiagnostic msg "go compiler" o = index m Escape) ∧
    (strings.HasPrefix msg "nilcheck" = true →
      showDiagnostic msg "go compiler" o = index m Nil) ∧
    ((strings.HasPrefix msg "isInBounds" = true ∨ strings.HasPrefix msg "isSliceInBounds" = true) →
      showDiagnostic msg "go compiler" o = index m Bounds) ∧
    ((strings.HasPrefix msg "canInline" = false ∧ strings.HasPrefix msg "cannotInline" = false ∧
        strings.HasPrefix msg "inlineCall" = false ∧ strings.HasPrefix msg "escape" = false ∧
        msg ≠ "leak" ∧ strings.HasPrefix msg "nilcheck" = false ∧
        strings.HasPrefix msg "isInBounds" = false ∧
        strings.HasPrefix msg "isSliceInBounds" = false) →
      showDiagnostic msg "go compiler" o = false) ∧
    (∀ k : Annotation, m k = none → index m k = false) := by
  rw [showDiagnostic_unfold msg o m hm]
  refine ⟨?_, ?_, ?_, ?_, ?_, ?_⟩
  · intro h
    have : isInlineMsg msg = true := by
      rcases h with h | h | h <;> simp [isInlineMsg, h]
    simp [this]
  · intro h
    have hk : ∃ k, msg.data.take 2 = k ∧ (k = ['e', 's'] ∨ k = ['l', 'e']) := by
      rcases h with h | h
      · exact ⟨_, rfl, Or.inl (take_of_HasPrefix msg "escape" 2 h (by decide))⟩
      · subst h; exact ⟨_, rfl, Or.inr (by decide)⟩
    obtain ⟨k, hk, hk2⟩ := hk
    have hi : isInlineMsg msg = false :=
      not_inline_of_take msg k hk (by rcases hk2 with e | e <;> rw [e] <;> decide)
        (by rcases hk2 with e | e <;> rw [e] <;> decide)
    have he : isEscapeMsg msg = true := by
      rcases h with h | h <;> simp [isEscapeMsg, h]
    simp [hi, he]
  · intro h
    have hk := take_of_HasPrefix msg "nilcheck" 2 h (by decide)
    have hi := not_inline_of_take msg _ hk (by decide) (by decide)
    have he := not_escape_of_take msg _ hk (by decide) (by decide)
    have hn : isNilMsg msg = true := h
    simp [hi, he, hn]
  · intro h
    have hk : msg.data.take 2 = ['i', 's'] := by
      rcases h with h | h
      · exact take_of_HasPrefix msg "isInBounds" 2 h (by decide)
      · exact take_of_HasPrefix msg "isSliceInBounds" 2 h (by decide)
    have hi := not_inline_of_take msg _ hk (by decide) (by decide)
    have he := not_escape_of_take msg _ hk (by decide) (by decide)
    have hn := not_nil_of_take msg _ hk (by decide)
    have hb : isBoundsMsg msg = true := by
      rcases h with h | h <;> simp [isBoundsMsg, h]
    simp [hi, he, hn, hb]
  · rintro ⟨h1, h2, h3, h4, h5, h6, h7, h8⟩
    simp [isInlineMsg, isEscapeMsg, isNilMsg, isBoundsMsg, h1, h2, h3, h4, h5, h6, h7, h8]
  · intro k hk
    simp [index, hk]

/-- Witness for C2: the map holding only `escape ↦ true`, message "leak". -/
theorem showDiagnostic_spec_witness :
    showDiagnostic "leak" "go compiler"
        ⟨some (fun k => if k = Escape then some true else none)⟩ = true ∧
      showDiagnostic "nilcheck(x)" "go compiler"
        ⟨some (fun k => if k = Escape then some true else none)⟩ = false :=
  ⟨((showDiagnostic_spec "leak" ⟨some (fun k => if k = Escape then some true else none)⟩
      _ rfl).2.1 (Or.inr rfl)).trans (by decide),
   ((showDiagnostic_spec "nilcheck(x)" ⟨some (fun k => if k = Escape then some true else none)⟩
      _ rfl).2.2.1 (by decide)).trans (by decide)⟩

end source

namespace source

/-- The decoded diagnostics that `parseDetailsFile` keeps. -/
theorem parseLoop_tail (x : Extern) (options : Options) (uri : String) :
    ∀ (rest : List Value) (ds : List protocol.Diagnostic) (i : Nat) (acc : List Diagnostic),
      i ≠ 0 →
      rest.map (fun v => v.asDiagnostic) = ds.map Except.ok →
      (∀ d ∈ ds, (stringValue d.Code).isSome = true) →
      parseLoop x options rest uri i acc =
        .returned (uri,
          acc ++ (ds.filter (fun d =>
              showDiagnostic (detailMessage ((stringValue d.Code).getD "") d.Message)
                d.Source options)).map
            (fun d => diagnosticOf x uri
              (detailMessage ((stringValue d.Code).getD "") d.Message) d),
          none) := by
  intro rest
  induction rest with
  | nil =>
    intro ds i acc _ hdec _
    cases ds with
    | nil => simp [parseLoop]
    | cons d ds => simp at hdec
  | cons v rest ih =>
    intro ds i acc hi hdec hcode
    cases ds with
    | nil => simp at hdec
    | cons d ds =>
      simp only [List.map_cons, List.cons.injEq] at hdec
      obtain ⟨hv, hrest⟩ := hdec
      have hc : (stringValue d.Code).isSome = true := hcode d (List.mem_cons_self _ _)
      obtain ⟨code, hcode0⟩ := Option.isSome_iff_exists.mp hc
      have hcs : ∀ e ∈ ds, (stringValue e.Code).isSome = true :=
        fun e he => hcode e (List.mem_cons_of_mem _ he)
      rw [parseLoop, if_neg hi, hv]
      simp only [hcode0]
      by_cases hs : showDiagnostic (detailMessage code d.Message) d.Source options = true
      · simp only [hs, Bool.not_true, Bool.false_eq_true, if_false]
        rw [ih ds (i + 1) _ (Nat.succ_ne_zero i) hrest hcs]
        simp [List.filter_cons, hcode0, hs]
      · simp only [Bool.not_eq_true] at hs
        simp only [hs, Bool.not_false, if_true]
        rw [ih ds i _ hi hrest hcs]
        simp [List.filter_cons, hcode0, hs]

end source

namespace source

/-- The result of `parseDetailsFile` on a file whose values all decode and
whose diagnostics all carry a string code. -/
theorem parseDetailsFile_eq (x : Extern) (ReadFile : String → Except error (List Value))
    (filename : String) (options : Options) (v0 : Value) (rest : List Value)
    (m : metadata) (ds : List protocol.Diagnostic)
    (hread : ReadFile filename = .ok (v0 :: rest))
    (hmeta : v0.asMetadata = .ok m)
    (hdec : rest.map (fun v => v.asDiagnostic) = ds.map Except.ok)
    (hcode : ∀ d ∈ ds, (stringValue d.Code).isSome = true) :
    parseDetailsFile x ReadFile filename options =
      .returned (if strings.HasSuffix m.File ".go" then x.URIFromPath m.File else "",
        (ds.filter (fun d =>
            showDiagnostic (detailMessage ((stringValue d.Code).getD "") d.Message)
              d.Source options)).map
          (fun d => diagnosticOf x
            (if strings.HasSuffix m.File ".go" then x.URIFromPath m.File else "")
            (detailMessage ((stringValue d.Code).getD "") d.Message) d),
        none) := by
  unfold parseDetailsFile
  rw [hread]
  simp only []
  rw [parseLoop, if_pos rfl, hmeta]
  simp only []
  by_cases hs : strings.HasSuffix m.File ".go" = true
  · simp only [hs, Bool.not_true, Bool.false_eq_true, if_false, if_true]
    rw [parseLoop_tail x options _ rest ds 1 [] (by decide) hdec hcode]
    rfl
  · simp only [Bool.not_eq_true] at hs
    simp only [hs, Bool.not_false, if_true, Bool.false_eq_true, if_false]
    rw [parseLoop_tail x options _ rest ds 1 [] (by decide) hdec hcode]
    rfl

/-- C5 (amended): for a details file whose values v0, v1..vn all decode and in
which the Code of every decoded diagnostic holds a string, `parseDetailsFile`
returns with a nil error; the returned uri is `URIFromPath` of the metadata's
file when that name ends in ".go" and the empty URI otherwise; v0 yields no
diagnostic; the returned diagnostics correspond one to one, in file order, to
the decoded v1..vn for which `showDiagnostic` holds of the composed message,
and each has URI equal to the returned uri, Source `OptimizationDetailsError`,
Range `zeroIndexedRange` of the decoded range, and Message
Code + "(" + Message + ")" when Code is non-empty (the empty message otherwise). -/
theorem parseDetailsFile_spec (x : Extern) (ReadFile : String → Except error (List Value))
    (filename : String) (options : Options) (v0 : Value) (rest : List Value)
    (m : metadata) (ds : List protocol.Diagnostic)
    (hread : ReadFile filename = .ok (v0 :: rest))
    (hmeta : v0.asMetadata = .ok m)
    (hdec : rest.map (fun v => v.asDiagnostic) = ds.map Except.ok)
    (hcode : ∀ d ∈ ds, (stringValue d.Code).isSome = true) :
    ∃ diagnostics : List Diagnostic,
      parseDetailsFile x ReadFile filename options =
        .returned (if strings.HasSuffix m.File ".go" then x.URIFromPath m.File else "",
          diagnostics, none) ∧
      List.Forall₂
        (fun (d : protocol.Diagnostic) (out : Diagnostic) =>
          out.URI = (if strings.HasSuffix m.File ".go" then x.URIFromPath m.File else "") ∧
          out.Source = x.OptimizationDetailsError ∧
          out.Range = zeroIndexedRange d.Range ∧
          (∀ code, d.Code = .string code → code ≠ "" →
            out.Message = code ++ "(" ++ d.Message ++ ")") ∧
          (d.Code = .string "" → out.Message = ""))
        (ds.filter (fun d =>
          showDiagnostic (detailMessage ((stringValue d.Code).getD "") d.Message)
            d.Source options))
        diagnostics := by
  refine ⟨_, parseDetailsFile_eq x ReadFile filename options v0 rest m ds hread hmeta hdec hcode,
    ?_⟩
  rw [List.forall₂_map_right_iff]
  apply List.forall₂_same.mpr
  intro d _
  refine ⟨rfl, rfl, rfl, ?_, ?_⟩
  · intro code hc hne
    simp [diagnosticOf, hc, stringValue, detailMessage, hne]
  · intro hc
    simp [diagnosticOf, hc, stringValue, detailMessage]

/-- Witness for C5 (amended): metadata for "/w/a.go" followed by one
"canInline" diagnostic, with a nil Annotations map. -/
theorem parseDetailsFile_spec_witness :
    ∃ diagnostics : List Diagnostic,
      parseDetailsFile exampleExtern exampleReadFile "a.json" exampleOptions =
        .returned (if strings.HasSuffix "/w/a.go" ".go" then
            exampleExtern.URIFromPath "/w/a.go" else "", diagnostics, none) ∧
      List.Forall₂
        (fun (d : protocol.Diagnostic) (out : Diagnostic) =>
          out.URI = (if strings.HasSuffix "/w/a.go" ".go" then
            exampleExtern.URIFromPath "/w/a.go" else "") ∧
          out.Source = exampleExtern.OptimizationDetailsError ∧
          out.Range = zeroIndexedRange d.Range ∧
          (∀ code, d.Code = .string code → code ≠ "" →
            out.Message = code ++ "(" ++ d.Message ++ ")") ∧
          (d.Code = .string "" → out.Message = ""))
        ([exampleDiagnostic (.string "canInline")].filter (fun d =>
          showDiagnostic (detailMessage ((stringValue d.Code).getD "") d.Message)
            d.Source exampleOptions))
        diagnostics :=
  parseDetailsFile_spec exampleExtern exampleReadFile "a.json" exampleOptions
    (metadataValue "/w/a.go") [diagnosticValue (exampleDiagnostic (.string "canInline"))]
    { File := "/w/a.go" } [exampleDiagnostic (.string "canInline")] rfl rfl rfl (by decide)

/-- C5 (as stated) fails: a details file whose two values both decode, the
second as a diagnostic without a code, makes `parseDetailsFile` panic instead
of returning diagnostics; and for metadata whose file does not end in ".go"
the returned uri, and the URI of the returned diagnostic, is empty rather
than that of the metadata's file. -/
theorem parseDetailsFile_counterexample :
    ((metadataValue "/w/a.go").asMetadata = .ok { File := "/w/a.go" } ∧
      (diagnosticValue (exampleDiagnostic .nil)).asDiagnostic = .ok (exampleDiagnostic .nil) ∧
      parseDetailsFile exampleExtern
        (fun _ => .ok [metadataValue "/w/a.go", diagnosticValue (exampleDiagnostic .nil)])
        "a.json" exampleOptions = .panicked) ∧
    (parseDetailsFile exampleExtern
        (fun _ => .ok [metadataValue "<autogenerated>",
          diagnosticValue (exampleDiagnostic (.string "canInline"))])
        "a.json" exampleOptions =
      .returned ("",
        [{ URI := "", Range := ⟨⟨2, 6⟩, ⟨3, 0⟩⟩, Message := "canInline(f)", Severity := 3,
           Source := "optimizer details", Tags := [], Related := [] }], none) ∧
      exampleExtern.URIFromPath "<autogenerated>" ≠ "") := by
  refine ⟨⟨rfl, rfl, ?_⟩, ?_, ?_⟩
  · decide
  · decide
  · decide

/-- C6 (amended): when the build tool invocation `RunGoCommandDirect` fails
(the output directory and the temporary file having been created),
`GCOptimizationDetails` returns the nil report map together with the tool's
error. -/
theorem GCOptimizationDetails_tool_failure (w : World) (pkgDir : String) (tmp : String)
    (err : error) (hmk : w.MkdirAll = none) (htmp : w.TempFile = .ok tmp)
    (hrun : w.RunGoCommandDirect = some err) :
    GCOptimizationDetails w pkgDir = .returned (none, some err) := by
  simp [GCOptimizationDetails, hmk, htmp, hrun]

/-- Witness for C6 (amended): the world whose tool invocation exits with status 2. -/
theorem GCOptimizationDetails_tool_failure_witness :
    GCOptimizationDetails failingToolWorld "/w" = .returned (none, some "exit status 2") :=
  GCOptimizationDetails_tool_failure failingToolWorld "/w" "/tmp/gopls-x1" "exit status 2"
    rfl rfl rfl

/-- C6 (as stated) fails: with a failing tool invocation the result is the nil
report map and the tool's error, although a details file with a reportable
diagnostic is present; the same world with a succeeding invocation reports it. -/
theorem GCOptimizationDetails_counterexample :
    GCOptimizationDetails failingToolWorld "/w" = .returned (none, some "exit status 2") ∧
    GCOptimizationDetails { failingToolWorld with RunGoCommandDirect := none } "/w" =
      .returned (some [(⟨"file:///w/a.go", "1", 1⟩,
        [{ URI := "file:///w/a.go", Range := ⟨⟨2, 6⟩, ⟨3, 0⟩⟩, Message := "canInline(f)",
           Severity := 3, Source := "optimizer details", Tags := [], Related := [] }])],
        none) := by
  constructor
  · decide
  · decide

end source

namespace vscode

/-- C7: for every token list `sts`, `sts.Array()` has length `5 * len(sts)`,
its entries at positions 5i .. 5i+4 are DiffLine, DiffChar, Length, TokenType
and TokenModifiers of `sts[i]` in that order, and the array of the empty list
is empty. -/
theorem SemanticTokens_Array_spec (sts : SemanticTokens) :
    (SemanticTokens.Array sts).length = 5 * sts.length ∧
    (∀ (i : Nat) (st : SemanticToken), sts[i]? = some st →
      (SemanticTokens.Array sts)[5 * i]? = some st.DiffLine ∧
      (SemanticTokens.Array sts)[5 * i + 1]? = some st.DiffChar ∧
      (SemanticTokens.Array sts)[5 * i + 2]? = some st.Length ∧
      (SemanticTokens.Array sts)[5 * i + 3]? = some st.TokenType ∧
      (SemanticTokens.Array sts)[5 * i + 4]? = some st.TokenModifiers) ∧
    SemanticTokens.Array [] = [] :=
  ⟨Array_length sts, fun i st h => Array_getElem? sts i st h, rfl⟩

/-- Witness for C7: two tokens, read at index 1. -/
theorem SemanticTokens_Array_spec_witness :
    (SemanticTokens.Array [⟨0, 0, 1, 2, 0⟩, ⟨1, 4, 3, 5, 0⟩]).length = 10 ∧
    (SemanticTokens.Array [⟨0, 0, 1, 2, 0⟩, ⟨1, 4, 3, 5, 0⟩])[5 * 1 + 3]? = some 5 :=
  ⟨(SemanticTokens_Array_spec [⟨0, 0, 1, 2, 0⟩, ⟨1, 4, 3, 5, 0⟩]).1,
   ((SemanticTokens_Array_spec [⟨0, 0, 1, 2, 0⟩, ⟨1, 4, 3, 5, 0⟩]).2.1 1 ⟨1, 4, 3, 5, 0⟩
      rfl).2.2.2.1⟩

end vscode

namespace lsp

/-- C1: in `Server.implementation` and in `Server.documentSymbol` the release
function returned by `beginFileRequest` is called exactly once, whatever the
file request and the analysis yield (request not ok, analysis error, analysis
panic, normal return): each handler makes one begin call and one release call,
so equal counts stay equal, and the pin count of the snapshot is afterwards
what it was before the request. -/
theorem handlers_release_exactly_once (s : Server) (params : Params) (g : Guard) :
    ((implementation s params g).2.begins = g.begins + 1 ∧
      (implementation s params g).2.releases = g.releases + 1 ∧
      (implementation s params g).2.pins = g.pins) ∧
    ((documentSymbol s params g).2.begins = g.begins + 1 ∧
      (documentSymbol s params g).2.releases = g.releases + 1 ∧
      (documentSymbol s params g).2.pins = g.pins) ∧
    (g.releases = g.begins →
      (implementation s params g).2.releases = (implementation s params g).2.begins ∧
      (documentSymbol s params g).2.releases = (documentSymbol s params g).2.begins) := by
  have hi : (implementation s params g).2 =
      { pins := g.pins, begins := g.begins + 1, releases := g.releases + 1 } := by
    simp [implementation, beginFileRequest, release]
  have hd : (documentSymbol s params g).2 =
      { pins := g.pins, begins := g.begins + 1, releases := g.releases + 1 } := by
    simp [documentSymbol, beginFileRequest, release]
  rw [hi, hd]
  refine ⟨⟨rfl, rfl, rfl⟩, ⟨rfl, rfl, rfl⟩, ?_⟩
  intro h
  simp [h]

theorem take_succ_set {α : Type} (l : List α) (i : Nat) (v : α) (h : i < l.length) :
    (l.set i v).take (i + 1) = l.take i ++ [v] := by
  rw [List.take_succ, List.getElem?_set_self h]
  congr 1
  induction l generalizing i with
  | nil => simp
  | cons a l ih =>
    cases i with
    | zero => simp
    | succ j =>
      simp only [List.set_cons_succ, List.take_succ_cons, List.cons.injEq, true_and]
      exact ih j (by simpa using h)

theorem fillSymbols_eq (hierarchical : Bool) (uri : String) :
    ∀ (ds : List DocumentSymbol) (i : Nat) (symbols : List Symbol),
      symbols.length = i + ds.length →
      fillSymbols hierarchical uri ds i symbols =
        symbols.take i ++ ds.map (fun s =>
          if hierarchical then Symbol.documentSymbol s
          else Symbol.symbolInformation
            { Name := s.Name, Kind := s.Kind, Deprecated := s.Deprecated,
              Location := { URI := uri, Range := s.Range }, ContainerName := "" }) := by
  intro ds
  induction ds with
  | nil =>
    intro i symbols h
    simp only [fillSymbols, List.map_nil, List.append_nil]
    rw [List.take_of_length_le (by simp at h; omega)]
  | cons d ds ih =>
    intro i symbols h
    have hlt : i < symbols.length := by simp at h; omega
    cases hierarchical with
    | true =>
      simp only [fillSymbols, if_true]
      rw [ih (i + 1) _ (by simp at h ⊢; omega), take_succ_set _ _ _ hlt]
      simp
    | false =>
      simp only [fillSymbols, Bool.false_eq_true, if_false]
      rw [ih (i + 1) _ (by simp at h ⊢; omega), take_succ_set _ _ _ hlt]
      simp

/-- C3: when `beginFileRequest` is ok and `source.DocumentSymbols` returns the
list `ds` without error, `Server.documentSymbol` returns a nil error and a list
of the length of `ds` whose element `i` is `ds[i]` itself when the client
supports hierarchical document symbols, and otherwise the SymbolInformation
with Name, Kind and Deprecated of `ds[i]` and Location
{URI: the request's URI, Range: ds[i].Range}. -/
theorem documentSymbol_spec (s : Server) (params : Params) (g : Guard)
    (ds : List DocumentSymbol)
    (hok : (s.fileRequest params.URI).ok = true)
    (hds : s.DocumentSymbols (s.fileRequest params.URI).snapshot (s.fileRequest params.URI).fh =
      .returned (ds, none)) :
    ∃ symbols : List Symbol,
      (documentSymbol s params g).1 = .returned (symbols, none) ∧
      symbols.length = ds.length ∧
      ∀ (i : Nat) (d : DocumentSymbol), ds[i]? = some d →
        symbols[i]? = some
          (if (s.fileRequest params.URI).snapshot.HierarchicalDocumentSymbolSupport then
            Symbol.documentSymbol d
          else Symbol.symbolInformation
            { Name := d.Name, Kind := d.Kind, Deprecated := d.Deprecated,
              Location := { URI := params.URI, Range := d.Range }, ContainerName := "" }) := by
  refine ⟨ds.map (fun d =>
      if (s.fileRequest params.URI).snapshot.HierarchicalDocumentSymbolSupport then
        Symbol.documentSymbol d
      else Symbol.symbolInformation
        { Name := d.Name, Kind := d.Kind, Deprecated := d.Deprecated,
          Location := { URI := params.URI, Range := d.Range }, ContainerName := "" }),
    ?_, ?_, ?_⟩
  · simp only [documentSymbol, beginFileRequest, hok, hds, Bool.not_true, Bool.false_eq_true,
      if_false]
    rw [fillSymbols_eq _ _ ds 0 _ (by simp)]
    simp only [List.take_zero, List.nil_append]
  · simp
  · intro i d hd
    simp [hd]

end lsp

namespace vscode

theorem scanLoop_run {Text Pos σ : Type} (x : Scanning Text Pos σ) (s0 : σ) (p0 : Pos) (n : Nat)
    (hlt : ∀ k, k < n → (scanAt x s0 k).tok ≠ x.EOF) (hn : (scanAt x s0 n).tok = x.EOF) :
    ∀ (d j fuel : Nat) (sts : SemanticTokens) (errs : List error) (scans : Nat),
      n = j + d → d < fuel →
      scanLoop x fuel (stateAt x s0 j) (lastPosAt x s0 p0 j) sts errs scans =
        some { sts := sts ++ (List.range' j (d + 1)).map (tokenAt x s0 p0),
               errs := errs ++ ((List.range' j (d + 1)).map
                 (fun k => (scanAt x s0 k).errs)).flatten,
               scans := scans + (d + 1) } := by
  intro d
  induction d with
  | zero =>
    intro j fuel sts errs scans hj hf
    obtain ⟨f, rfl⟩ : ∃ f, fuel = f + 1 := ⟨fuel - 1, by omega⟩
    have hjn : j = n := by omega
    subst hjn
    have hn2 : (x.Scan (stateAt x s0 j)).1.tok = x.EOF := hn
    simp [scanLoop, hn2, tokenAt, scanAt]
  | succ d ih =>
    intro j fuel sts errs scans hj hf
    obtain ⟨f, rfl⟩ : ∃ f, fuel = f + 1 := ⟨fuel - 1, by omega⟩
    have hne : (x.Scan (stateAt x s0 j)).1.tok ≠ x.EOF := hlt j (by omega)
    have hs1 : stateAt x s0 (j + 1) = (x.Scan (stateAt x s0 j)).2 := rfl
    have hp1 : lastPosAt x s0 p0 (j + 1) = (x.Scan (stateAt x s0 j)).1.pos := rfl
    have hstep := ih (j + 1) f
      (sts ++ [SemanticTokenFromScan x (lastPosAt x s0 p0 j) (x.Scan (stateAt x s0 j)).1.pos
        (x.Scan (stateAt x s0 j)).1.tok (x.Scan (stateAt x s0 j)).1.lit])
      (errs ++ (x.Scan (stateAt x s0 j)).1.errs) (scans + 1) (by omega) (by omega)
    rw [hs1, hp1] at hstep
    simp only [scanLoop, hne, if_false]
    rw [hstep]
    have hr : List.range' j (d + 1 + 1) = j :: List.range' (j + 1) (d + 1) := rfl
    rw [hr]
    simp [tokenAt, scanAt, List.append_assoc, Nat.add_comm, Nat.add_left_comm]

end vscode

namespace vscode

theorem tokenAt_TokenType {Text Pos σ : Type} (x : Scanning Text Pos σ) (s0 : σ) (p0 : Pos)
    (k : Nat) : (tokenAt x s0 p0 k).TokenType = (scanAt x s0 k).tok := rfl

/-- C8: when `source.Read` succeeds and some call of `s.Scan()` yields EOF,
`SemanticTokensFromSource` returns (for every sufficient bound on the number
of loop iterations, the same result): a non-empty token list with exactly one
token per `Scan` call, token `i` being built from the result of call `i`,
whose last token has TokenType `int(token.EOF)` while no earlier token has it;
the errors reported by the scanner are returned next to these tokens. When
`source.Read` fails, the result is the empty token list with that error. -/
theorem SemanticTokensFromSource_spec {Text Pos σ : Type} (x : Scanning Text Pos σ)
    (filename : String) :
    (∀ text, x.Read filename = .ok text →
      (∃ k, (scanAt x (x.Init filename text) k).tok = x.EOF) →
      ∃ r : Tokens,
        (∃ fuel0, ∀ fuel, fuel0 ≤ fuel → SemanticTokensFromSource x fuel filename = some r) ∧
        r.sts ≠ [] ∧
        r.sts.length = r.scans ∧
        (∀ i, i < r.scans →
          r.sts[i]? = some (tokenAt x (x.Init filename text) (x.startPos filename text) i)) ∧
        r.sts.getLast?.map (fun st => st.TokenType) = some x.EOF ∧
        (∀ i st, i + 1 < r.sts.length → r.sts[i]? = some st → st.TokenType ≠ x.EOF) ∧
        r.errs = ((List.range r.scans).map
          (fun k => (scanAt x (x.Init filename text) k).errs)).flatten) ∧
    (∀ terr, x.Read filename = .error terr →
      ∀ fuel, SemanticTokensFromSource x fuel filename =
        some { sts := [], errs := [terr], scans := 0 }) := by
  constructor
  · intro text hread hex
    have hn := Nat.find_spec hex
    have hlt : ∀ k, k < Nat.find hex → (scanAt x (x.Init filename text) k).tok ≠ x.EOF :=
      fun k hk => Nat.find_min hex hk
    generalize Nat.find hex = n at hn hlt
    refine ⟨{ sts := (List.range (n + 1)).map
                (tokenAt x (x.Init filename text) (x.startPos filename text)),
              errs := ((List.range (n + 1)).map
                (fun k => (scanAt x (x.Init filename text) k).errs)).flatten,
              scans := n + 1 }, ⟨n + 1, ?_⟩, ?_, ?_, ?_, ?_, ?_, ?_⟩
    · intro fuel hfuel
      unfold SemanticTokensFromSource
      rw [hread]
      simp only []
      have h := scanLoop_run x (x.Init filename text) (x.startPos filename text) n hlt hn
        n 0 fuel [] [] 0 (by omega) (by omega)
      have hs0 : stateAt x (x.Init filename text) 0 = x.Init filename text := rfl
      have hp0 : lastPosAt x (x.Init filename text) (x.startPos filename text) 0 =
          x.startPos filename text := rfl
      rw [hs0, hp0] at h
      rw [h, List.range_eq_range']
      simp
    · intro h
      have := congrArg List.length h
      simp at this
    · simp
    · intro i hi
      simp only at hi
      simp [List.getElem?_range hi]
    · simp only [List.getLast?_map, List.getLast?_range]
      simp [tokenAt_TokenType, hn]
    · intro i st hi hst
      simp only [List.length_map, List.length_range] at hi
      have hi2 : i < n + 1 := by omega
      simp only [List.getElem?_map, List.getElem?_range hi2, Option.map_some',
        Option.some.injEq] at hst
      subst hst
      rw [tokenAt_TokenType]
      exact hlt i (by omega)
    · rfl
  · intro terr hread fuel
    unfold SemanticTokensFromSource
    rw [hread]

/-- Witness for C8: the scanner over the three tokens of `a:` followed by EOF. -/
theorem SemanticTokensFromSource_spec_witness :
    ∃ r : Tokens,
      (∃ fuel0, ∀ fuel, fuel0 ≤ fuel →
        SemanticTokensFromSource
          (listScanning (fun _ => .ok [(1, 1, 5, "a"), (1, 2, 47, ":"), (1, 3, 1, "")]))
          fuel "test" = some r) ∧
      r.sts ≠ [] ∧ r.sts.length = r.scans :=
  match (SemanticTokensFromSource_spec
      (listScanning (fun _ => .ok [(1, 1, 5, "a"), (1, 2, 47, ":"), (1, 3, 1, "")]))
      "test").1 [(1, 1, 5, "a"), (1, 2, 47, ":"), (1, 3, 1, "")] rfl ⟨2, by decide⟩ with
  | ⟨r, h1, h2, h3, _⟩ => ⟨r, h1, h2, h3⟩

end vscode

namespace lsp

/-- Witness for C1: a request on a guard with two pins and five completed
requests. -/
theorem handlers_release_exactly_once_witness :
    (implementation (exampleServer false) ⟨"file:///w/a.cue", ⟨0, 0⟩⟩ ⟨2, 5, 5⟩).2.pins = 2 ∧
    (documentSymbol (exampleServer false) ⟨"file:///w/a.cue", ⟨0, 0⟩⟩ ⟨2, 5, 5⟩).2.releases =
      (documentSymbol (exampleServer false) ⟨"file:///w/a.cue", ⟨0, 0⟩⟩ ⟨2, 5, 5⟩).2.begins :=
  ⟨(handlers_release_exactly_once (exampleServer false) ⟨"file:///w/a.cue", ⟨0, 0⟩⟩
      ⟨2, 5, 5⟩).1.2.2,
   ((handlers_release_exactly_once (exampleServer false) ⟨"file:///w/a.cue", ⟨0, 0⟩⟩
      ⟨2, 5, 5⟩).2.2 rfl).2⟩

/-- Witness for C3: one symbol, client without hierarchical symbol support. -/
theorem documentSymbol_spec_witness :
    ∃ symbols : List Symbol,
      (documentSymbol (exampleServer false) ⟨"file:///w/a.cue", ⟨0, 0⟩⟩ ⟨0, 0, 0⟩).1 =
        .returned (symbols, none) ∧
      symbols.length = 1 ∧
      symbols[0]? = some (Symbol.symbolInformation
        { Name := "a", Kind := 8, Deprecated := false,
          Location := { URI := "file:///w/a.cue", Range := ⟨⟨0, 0⟩, ⟨0, 9⟩⟩ },
          ContainerName := "" }) :=
  match documentSymbol_spec (exampleServer false) ⟨"file:///w/a.cue", ⟨0, 0⟩⟩ ⟨0, 0, 0⟩
      [.mk "a" "" 8 false ⟨⟨0, 0⟩, ⟨0, 9⟩⟩ ⟨⟨0, 0⟩, ⟨0, 1⟩⟩ []] rfl rfl with
  | ⟨symbols, h1, h2, h3⟩ =>
    ⟨symbols, h1, h2, h3 0 (.mk "a" "" 8 false ⟨⟨0, 0⟩, ⟨0, 9⟩⟩ ⟨⟨0, 0⟩, ⟨0, 1⟩⟩ []) rfl⟩

end lsp
